import Mathlib

/-!
Shallow embedding of fastq_inspector.py: a streaming FASTQ quality-control
tool. Records are (sequence, quality) string pairs; statistics are exact
rationals; fallible operations (statistics.mean on an empty list, the
worker-pool constructor on a non-positive worker count) return Option.
-/

namespace FastqInspector

/-- A FASTQ read as yielded by parse_fastq: a (sequence, quality) pair. -/
abbrev Read := String × String

/-- The ASCII whitespace characters removed by Python str.strip with no
argument (Unicode-only whitespace is not modelled). -/
def isPySpace (c : Char) : Bool :=
  c = ' ' || c = '\t' || c = '\n' || c = '\r' || c = '\x0b' || c = '\x0c'

/-- Python str.strip with no argument: remove leading and trailing
whitespace. -/
def pyStrip (s : String) : String :=
  ⟨((s.data.dropWhile isPySpace).reverse.dropWhile isPySpace).reverse⟩

/-- parse_fastq. The input stream is modelled as the list of raw lines that
successive readline calls return (line terminators included); past the end of
the stream readline returns "", which strips to "", so any list with fewer
than four remaining lines ends the output. Each record uses four consecutive
lines: header (discarded), sequence (stripped), separator (discarded),
quality (stripped); iteration stops when the stripped quality is empty. -/
def parse_fastq : List String → List Read
  | _hdr :: seq :: _plus :: qual :: rest =>
    if pyStrip qual = "" then []
    else (pyStrip seq, pyStrip qual) :: parse_fastq rest
  | _ => []

/-- gc_content: sum(1 for base in seq if base in "GCgc") over len(seq),
times 100; 0 for an empty sequence. -/
def gc_content (seq : String) : ℚ :=
  let gc := (seq.data.filter (fun base => ("GCgc".data).contains base)).length
  if seq.data = [] then 0 else ((gc : ℚ) / (seq.data.length : ℚ)) * 100

/-- quality_scores: ord(char) - 33 for each character of the quality
string. -/
def quality_scores (qual_str : String) : List ℤ :=
  qual_str.data.map (fun char => (char.toNat : ℤ) - 33)

/-- statistics.mean: arithmetic mean; raises (modelled as none) on an empty
sequence. -/
def mean (l : List ℚ) : Option ℚ :=
  if l = [] then none else some (l.sum / (l.length : ℚ))

/-- The quality scores of one read, as the exact rationals statistics.mean
averages. -/
def qlist (qual : String) : List ℚ :=
  (quality_scores qual).map (fun z : ℤ => (z : ℚ))

/-- The dict built by analyze_chunk. -/
structure ChunkStats where
  gc_contents : List ℚ
  qualities : List ℚ
  lengths : List ℕ
deriving Repr, DecidableEq

/-- The dict returned by aggregate_stats. -/
structure Report where
  avg_gc : ℚ
  avg_quality : ℚ
  avg_length : ℚ
  total_reads : ℕ
deriving Repr, DecidableEq

/-- analyze_chunk: per-read GC content, mean quality and sequence length, in
chunk order; statistics.mean raises (none) on an empty quality string. -/
def analyze_chunk : List Read → Option ChunkStats
  | [] => some ⟨[], [], []⟩
  | (seq, qual) :: rest => do
    let q ← mean (qlist qual)
    let st ← analyze_chunk rest
    pure ⟨gc_content seq :: st.gc_contents, q :: st.qualities,
          seq.data.length :: st.lengths⟩

/-- aggregate_stats: concatenate the three per-chunk lists across all chunk
results in order, then take the global mean of each; total_reads is the
length of the concatenated GC list. -/
def aggregate_stats (results : List ChunkStats) : Option Report := do
  let all_gc := (results.map (fun r => r.gc_contents)).flatten
  let all_qual := (results.map (fun r => r.qualities)).flatten
  let all_lens : List ℕ := (results.map (fun r => r.lengths)).flatten
  let avg_gc ← mean all_gc
  let avg_quality ← mean all_qual
  let avg_length ← mean (all_lens.map (fun n : ℕ => (n : ℚ)))
  pure ⟨avg_gc, avg_quality, avg_length, all_gc.length⟩

/-- Loop of chunked_iterator: chunk accumulates the current incomplete chunk;
a chunk is emitted when its length equals chunk_size (an arbitrary integer,
as in Python), and the leftover chunk is emitted at the end if non-empty. -/
def chunkGo (chunk_size : ℤ) : List α → List α → List (List α)
  | [], chunk => if chunk.isEmpty then [] else [chunk]
  | item :: rest, chunk =>
    if (((chunk ++ [item]).length : ℤ) = chunk_size) then
      (chunk ++ [item]) :: chunkGo chunk_size rest []
    else
      chunkGo chunk_size rest (chunk ++ [item])

/-- chunked_iterator: split the input into successive chunks of chunk_size
elements, the last possibly smaller. -/
def chunked_iterator (l : List α) (chunk_size : ℤ) : List (List α) :=
  chunkGo chunk_size l []

/-- pool.map analyze_chunk: analyze every chunk, collecting the results in
order; a failure in any worker aborts the whole run. -/
def mapResults : List (List Read) → Option (List ChunkStats)
  | [] => some []
  | c :: cs => do
    let st ← analyze_chunk c
    let rest ← mapResults cs
    pure (st :: rest)

/-- run_analysis: chunk the parsed records, analyze every chunk, aggregate.
multiprocessing.Pool raises ValueError when the worker count is below 1;
this happens at pool construction, before the lazy chunk iterator is
consumed, and is modelled by the none branch. -/
def run_analysis (lines : List String) (chunk_size workers : ℤ) : Option Report :=
  if workers < 1 then none
  else do
    let results ← mapResults (chunked_iterator (parse_fastq lines) chunk_size)
    aggregate_stats results

/-- The chunked pipeline of claim C1: chunk the records, analyze each chunk,
aggregate the per-chunk results. -/
def pipeline (l : List Read) (chunk_size : ℤ) : Option Report := do
  let results ← mapResults (chunked_iterator l chunk_size)
  aggregate_stats results

/-- Arithmetic mean of one read's Phred scores (total function; meaningful
only when the quality string is non-empty). -/
def readMeanQ (r : Read) : ℚ :=
  (qlist r.2).sum / (((qlist r.2).length : ℚ))

/-- The ChunkStats analyze_chunk produces when every quality string in the
chunk is non-empty. -/
def statsOf (chunk : List Read) : ChunkStats :=
  ⟨chunk.map (fun r => gc_content r.1), chunk.map readMeanQ,
   chunk.map (fun r => r.1.data.length)⟩

/-- The four statistics computed directly over the unchunked record list:
the reference semantics the spec states for chunk-invariance. -/
def directStats (l : List Read) : Option Report := do
  let avg_gc ← mean (l.map (fun r => gc_content r.1))
  let avg_quality ← mean (l.map readMeanQ)
  let avg_length ← mean (l.map (fun r => (r.1.data.length : ℚ)))
  pure ⟨avg_gc, avg_quality, avg_length, l.length⟩

/-- Modelled from the spec wording of claim C4: strip only trailing
line-terminator characters. -/
def rstripNewline (s : String) : String :=
  ⟨(s.data.reverse.dropWhile (fun c => c = '\n' || c = '\r')).reverse⟩

/-- The record reader exactly as claim C4 words it: four consecutive lines
per record, with sequence and quality stripped of trailing line terminators
only. -/
def parse_fastq_claimed : List String → List Read
  | _hdr :: seq :: _plus :: qual :: rest =>
    if rstripNewline qual = "" then []
    else (rstripNewline seq, rstripNewline qual) :: parse_fastq_claimed rest
  | _ => []

/-- Consecutive groups of exactly four lines; a trailing incomplete group is
dropped. -/
def groups4 : List String → List (String × String × String × String)
  | a :: b :: c :: d :: rest => (a, b, c, d) :: groups4 rest
  | _ => []

/-- Reference record extraction: take four-line groups while the stripped
quality line is non-empty, keeping (stripped sequence, stripped quality). -/
def fastqRecords (ls : List String) : List Read :=
  ((groups4 ls).takeWhile (fun g => pyStrip g.2.2.2 != "")).map
    (fun g => (pyStrip g.2.1, pyStrip g.2.2.2))

/-! Helper lemmas. -/

/-- A non-empty string has a non-empty character list. -/
lemma data_ne_nil {s : String} (h : s ≠ "") : s.data ≠ [] := by
  intro hd
  apply h
  cases s with
  | mk d =>
    simp only [String.data] at hd
    subst hd
    rfl

/-- The quality-score list of a non-empty quality string is non-empty. -/
lemma qlist_ne_nil {q : String} (h : q ≠ "") : qlist q ≠ [] := by
  intro hnil
  apply data_ne_nil h
  have hlen := congrArg List.length hnil
  simp only [qlist, quality_scores, List.length_map, List.length_nil] at hlen
  exact List.eq_nil_of_length_eq_zero hlen

/-- mean on a non-empty list returns the sum over the length. -/
lemma mean_eq_some {l : List ℚ} (h : l ≠ []) :
    mean l = some (l.sum / (l.length : ℚ)) := by
  simp [mean, h]

/-- analyze_chunk succeeds with the per-read maps when every quality string
in the chunk is non-empty. -/
lemma analyze_chunk_eq_statsOf : ∀ chunk : List Read,
    (∀ r ∈ chunk, r.2 ≠ "") → analyze_chunk chunk = some (statsOf chunk)
  | [] => fun _ => rfl
  | (s, q) :: rest => fun h => by
    have hq : q ≠ "" := h (s, q) (List.mem_cons_self _ _)
    have ih := analyze_chunk_eq_statsOf rest (fun r hr => h r (List.mem_cons_of_mem _ hr))
    simp [analyze_chunk, ih, mean_eq_some (qlist_ne_nil hq), statsOf, readMeanQ]

/-- Whenever analyze_chunk succeeds, its result is the per-read maps. -/
lemma analyze_chunk_some : ∀ {chunk : List Read} {st : ChunkStats},
    analyze_chunk chunk = some st → st = statsOf chunk
  | [], st => fun h => by
    simp only [analyze_chunk, Option.some_inj] at h
    simp [statsOf, ← h]
  | (s, q) :: rest, st => fun h => by
    simp only [analyze_chunk, Option.pure_def, Option.bind_eq_bind,
      Option.bind_eq_some, Option.some_inj] at h
    obtain ⟨a, ha, b, hb, hst⟩ := h
    have hrest : b = statsOf rest := analyze_chunk_some hb
    by_cases hq : qlist q = []
    · simp [mean, hq] at ha
    · rw [mean_eq_some hq, Option.some_inj] at ha
      subst hrest
      subst ha
      simp [← hst, statsOf, readMeanQ]

/-- The concatenation of the chunks emitted by the chunker loop is the
pending chunk followed by the remaining input. -/
lemma chunkGo_flatten (n : ℤ) : ∀ (l acc : List α), (chunkGo n l acc).flatten = acc ++ l
  | [], acc => by
    by_cases h : acc.isEmpty <;>
      simp_all [chunkGo, List.isEmpty_iff]
  | item :: rest, acc => by
    simp only [chunkGo]
    split
    · simp [chunkGo_flatten n rest []]
    · simp [chunkGo_flatten n rest (acc ++ [item])]

/-- Concatenating the chunks of chunked_iterator restores the input. -/
lemma chunked_iterator_flatten (l : List α) (n : ℤ) :
    (chunked_iterator l n).flatten = l := by
  simpa using chunkGo_flatten n l []

/-- Mapping analyze_chunk over chunks of reads with non-empty quality
strings succeeds chunkwise. -/
lemma mapResults_eq_map : ∀ chunks : List (List Read),
    (∀ c ∈ chunks, ∀ r ∈ c, r.2 ≠ "") →
    mapResults chunks = some (chunks.map statsOf)
  | [] => fun _ => rfl
  | c :: cs => fun h => by
    have hc := analyze_chunk_eq_statsOf c (h c (List.mem_cons_self _ _))
    have ih := mapResults_eq_map cs (fun d hd => h d (List.mem_cons_of_mem _ hd))
    simp [mapResults, hc, ih]

/-- Whenever mapResults succeeds, its results are the chunkwise maps. -/
lemma mapResults_some : ∀ {chunks : List (List Read)} {sts : List ChunkStats},
    mapResults chunks = some sts → sts = chunks.map statsOf
  | [], sts => fun h => by
    simp only [mapResults, Option.some_inj] at h
    simp [← h]
  | c :: cs, sts => fun h => by
    simp only [mapResults, Option.pure_def, Option.bind_eq_bind,
      Option.bind_eq_some, Option.some_inj] at h
    obtain ⟨a, ha, b, hb, hst⟩ := h
    have h1 : a = statsOf c := analyze_chunk_some ha
    have h2 : b = cs.map statsOf := mapResults_some hb
    subst h1
    subst h2
    simp [← hst]

/-- Concatenating one per-read field of the chunkwise summaries equals
mapping the per-read function over the concatenated chunks. -/
lemma statsOf_flatten {β : Type} (f : ChunkStats → List β) (g : Read → β)
    (hfg : ∀ c : List Read, f (statsOf c) = c.map g) :
    ∀ chunks : List (List Read),
      (((chunks.map statsOf).map f).flatten) = (chunks.flatten).map g
  | [] => by simp
  | c :: cs => by
    rw [List.map_cons, List.map_cons, List.flatten_cons, List.flatten_cons,
      hfg, statsOf_flatten f g hfg cs, List.map_append]

/-- Aggregating the chunkwise summaries computes the direct statistics of
the concatenated chunks. -/
lemma aggregate_statsOf (chunks : List (List Read)) :
    aggregate_stats (chunks.map statsOf) = directStats chunks.flatten := by
  have hgc := statsOf_flatten (fun st => st.gc_contents)
    (fun r => gc_content r.1) (fun c => rfl) chunks
  have hq := statsOf_flatten (fun st => st.qualities) readMeanQ (fun c => rfl) chunks
  have hlen := statsOf_flatten (fun st => st.lengths)
    (fun r => r.1.data.length) (fun c => rfl) chunks
  simp only [aggregate_stats, directStats]
  rw [hgc, hq, hlen]
  simp [List.map_map, List.length_map, Function.comp_def]

/-- The chunked pipeline computes the direct statistics, for every chunk
size, when every quality string is non-empty. -/
lemma pipeline_eq_direct (l : List Read) (h : ∀ r ∈ l, r.2 ≠ "") (n : ℤ) :
    pipeline l n = directStats l := by
  have hmem : ∀ c ∈ chunked_iterator l n, ∀ r ∈ c, r.2 ≠ "" := by
    intro c hc r hr
    apply h
    rw [← chunked_iterator_flatten l n]
    exact List.mem_flatten.mpr ⟨c, hc, hr⟩
  simp [pipeline, mapResults_eq_map _ hmem, aggregate_statsOf, chunked_iterator_flatten]

/-- Every chunk the chunker loop emits is non-empty and no longer than the
chunk size, provided the chunk size is at least 1 and the pending chunk is
shorter than it. -/
lemma chunkGo_mem {n : ℤ} (hn : 1 ≤ n) : ∀ (l acc : List α),
    ((acc.length : ℤ) < n) → ∀ c ∈ chunkGo n l acc, c ≠ [] ∧ (c.length : ℤ) ≤ n
  | [], acc => fun hacc c hc => by
    by_cases h : acc.isEmpty
    · simp [chunkGo, h] at hc
    · simp only [chunkGo, if_neg h, List.mem_singleton] at hc
      subst hc
      refine ⟨by simpa [List.isEmpty_iff] using h, by omega⟩
  | item :: rest, acc => fun hacc c hc => by
    simp only [chunkGo] at hc
    split at hc
    case isTrue h =>
      rcases List.mem_cons.mp hc with h1 | h1
      · subst h1
        exact ⟨by simp, by omega⟩
      · exact chunkGo_mem hn rest [] (by simp; omega) c h1
    case isFalse h =>
      refine chunkGo_mem hn rest (acc ++ [item]) ?_ c hc
      have hl : (acc ++ [item]).length = acc.length + 1 := by simp
      omega

/-- Membership in the dropLast of a cons. -/
lemma mem_dropLast_cons {a c : α} : ∀ {l : List α},
    c ∈ (a :: l).dropLast → c = a ∨ c ∈ l.dropLast
  | [], h => by simp at h
  | b :: l2, h => by
    rw [List.dropLast_cons₂] at h
    exact List.mem_cons.mp h

/-- Every chunk the chunker loop emits except the last has length exactly
the chunk size. -/
lemma chunkGo_dropLast {n : ℤ} : ∀ (l acc : List α),
    ∀ c ∈ (chunkGo n l acc).dropLast, (c.length : ℤ) = n
  | [], acc => fun c hc => by
    by_cases h : acc.isEmpty <;> simp [chunkGo, h] at hc
  | item :: rest, acc => fun c hc => by
    simp only [chunkGo] at hc
    split at hc
    case isTrue h =>
      rcases mem_dropLast_cons hc with h1 | h1
      · subst h1
        exact h
      · exact chunkGo_dropLast rest [] c h1
    case isFalse h => exact chunkGo_dropLast rest (acc ++ [item]) c hc

/-- With a non-positive chunk size the emission test never fires: everything
ends up in one final chunk. -/
lemma chunkGo_nonpos {n : ℤ} (hn : n ≤ 0) : ∀ (l acc : List α),
    chunkGo n l acc = if (acc ++ l).isEmpty then [] else [acc ++ l]
  | [], acc => by rw [List.append_nil]; simp [chunkGo]
  | item :: rest, acc => by
    have hne : ¬(((acc ++ [item]).length : ℤ) = n) := by
      have hl : (acc ++ [item]).length = acc.length + 1 := by simp
      omega
    simp only [chunkGo, if_neg hne]
    rw [chunkGo_nonpos hn rest (acc ++ [item])]
    simp [List.append_assoc]

/-- Flattening is invariant under permutation of the outer list. -/
lemma flatten_perm {L₁ L₂ : List (List α)} (h : L₁.Perm L₂) :
    L₁.flatten.Perm L₂.flatten := by
  induction h with
  | nil => simp
  | cons x _ ih => simpa using ih.append_left x
  | swap x y l =>
    simp only [List.flatten_cons]
    rw [← List.append_assoc, ← List.append_assoc]
    exact List.perm_append_comm.append_right _
  | trans _ _ ih1 ih2 => exact ih1.trans ih2

/-- mean is invariant under permutation. -/
lemma mean_perm {l l' : List ℚ} (h : l.Perm l') : mean l = mean l' := by
  by_cases hl : l = []
  · subst hl
    rw [h.symm.eq_nil]
  · have hl' : l' ≠ [] := fun he => hl (by rw [he] at h; exact h.eq_nil)
    rw [mean_eq_some hl, mean_eq_some hl', h.sum_eq, h.length_eq]

/-- The source's membership test in "GCgc" agrees with the spec's
four-character set. -/
lemma gc_pred (b : Char) : (("GCgc".data).contains b) =
    (decide (b = 'G' ∨ b = 'C' ∨ b = 'g' ∨ b = 'c')) := by
  have hd : "GCgc".data = ['G', 'C', 'g', 'c'] := rfl
  rw [hd, Bool.eq_iff_iff]
  simp [List.contains_eq_any_beq]

/-- When directStats succeeds, total_reads is the number of records. -/
lemma directStats_total {l : List Read} {rep : Report}
    (h : directStats l = some rep) : rep.total_reads = l.length := by
  simp only [directStats, Option.pure_def, Option.bind_eq_bind,
    Option.bind_eq_some, Option.some_inj] at h
  obtain ⟨a, _, b, _, c, _, hrep⟩ := h
  rw [← hrep]

/-! Claim theorems. -/

/-- Claim C1: chunk-invariance. For every record list with non-empty quality
strings and chunk sizes N1, N2 at least 1, chunking with N1, analyzing each
chunk and aggregating gives the same report as doing so with N2, and both
equal the four statistics computed directly over the unchunked records. -/
theorem c1_chunk_invariance (l : List Read) (h : ∀ r ∈ l, r.2 ≠ "")
    (n1 n2 : ℤ) (_h1 : 1 ≤ n1) (_h2 : 1 ≤ n2) :
    pipeline l n1 = pipeline l n2 ∧ pipeline l n1 = directStats l := by
  refine ⟨?_, pipeline_eq_direct l h n1⟩
  rw [pipeline_eq_direct l h n1, pipeline_eq_direct l h n2]

/-- Witness for C1 at a concrete two-record input and chunk sizes 1 and 3. -/
theorem c1_chunk_invariance_witness :
    pipeline [(("GGCC" : String), ("!!!!" : String)),
              (("AATT" : String), ("IIII" : String))] 1 =
      pipeline [(("GGCC" : String), ("!!!!" : String)),
                (("AATT" : String), ("IIII" : String))] 3 ∧
    pipeline [(("GGCC" : String), ("!!!!" : String)),
              (("AATT" : String), ("IIII" : String))] 1 =
      directStats [(("GGCC" : String), ("!!!!" : String)),
                   (("AATT" : String), ("IIII" : String))] :=
  c1_chunk_invariance _ (by decide) 1 3 (by decide) (by decide)

/-- Claim C5: chunker correctness. For chunk size at least 1, every emitted
chunk is non-empty and holds at most N records, every chunk except possibly
the last holds exactly N, and concatenating the chunks in emission order
restores the input sequence (hence encounter order is preserved). -/
theorem c5_chunker_correct {α : Type} (l : List α) (n : ℤ) (hn : 1 ≤ n) :
    (∀ c ∈ chunked_iterator l n, c ≠ [] ∧ (c.length : ℤ) ≤ n) ∧
    (∀ c ∈ (chunked_iterator l n).dropLast, (c.length : ℤ) = n) ∧
    (chunked_iterator l n).flatten = l :=
  ⟨fun c hc => chunkGo_mem hn l [] (by simp; omega) c hc,
   fun c hc => chunkGo_dropLast l [] c hc,
   chunked_iterator_flatten l n⟩

/-- Witness for C5 at the list [1, 2, 3] with chunk size 2. -/
theorem c5_chunker_correct_witness :
    (∀ c ∈ chunked_iterator [1, 2, 3] 2, c ≠ [] ∧ (c.length : ℤ) ≤ 2) ∧
    (∀ c ∈ (chunked_iterator [1, 2, 3] 2).dropLast, (c.length : ℤ) = 2) ∧
    (chunked_iterator [1, 2, 3] 2).flatten = [1, 2, 3] :=
  c5_chunker_correct [1, 2, 3] 2 (by decide)

/-- Claim C6: empty-input failure. When parsing yields zero records the run
returns no report: statistics.mean raises on the empty list inside
aggregate_stats, so run_analysis fails for every configuration. -/
theorem c6_empty_input_fails (ls : List String) (chunk_size workers : ℤ)
    (h : parse_fastq ls = []) : run_analysis ls chunk_size workers = none := by
  by_cases hw : workers < 1
  · simp [run_analysis, hw]
  · simp [run_analysis, hw, h, chunked_iterator, chunkGo, mapResults,
      aggregate_stats, mean]

/-- Witness for C6 at the empty stream and the default configuration. -/
theorem c6_empty_input_fails_witness :
    parse_fastq ([] : List String) = [] ∧ run_analysis [] 10000 4 = none :=
  ⟨rfl, c6_empty_input_fails [] 10000 4 rfl⟩

/-- Claim C7 as stated is false: chunk size 0 is non-positive, yet on a valid
one-record input the run does not fail — it parses the stream and returns a
complete report. -/
theorem c7_counterexample :
    run_analysis ["@r\n", "GC\n", "+\n", "!!\n"] 0 4 = some ⟨100, 0, 2, 1⟩ := by
  simp [run_analysis, parse_fastq, pyStrip, isPySpace, chunked_iterator, chunkGo,
    mapResults, analyze_chunk, aggregate_stats, mean, qlist, quality_scores, gc_content]

/-- Claim C7 amended: a non-positive worker count makes the run fail (the
pool constructor rejects it before any record is consumed), but a
non-positive chunk size is not validated — chunking proceeds and packs all
parsed records into a single chunk. -/
theorem c7_amended_validation :
    (∀ (ls : List String) (chunk_size workers : ℤ), workers ≤ 0 →
      run_analysis ls chunk_size workers = none) ∧
    (∀ (ls : List String) (chunk_size : ℤ), chunk_size ≤ 0 →
      chunked_iterator (parse_fastq ls) chunk_size =
        if (parse_fastq ls).isEmpty then [] else [parse_fastq ls]) := by
  constructor
  · intro ls c w hw
    have h1 : w < 1 := by omega
    simp [run_analysis, h1]
  · intro ls c hc
    simpa [chunked_iterator] using chunkGo_nonpos hc (parse_fastq ls) []

/-- Witness for the amended C7 at a concrete input, worker count 0 and chunk
size 0. -/
theorem c7_amended_validation_witness :
    run_analysis ["@r\n", "GC\n", "+\n", "!!\n"] 5 0 = none ∧
    chunked_iterator (parse_fastq ["@r\n", "GC\n", "+\n", "!!\n"]) 0 =
      (if (parse_fastq ["@r\n", "GC\n", "+\n", "!!\n"]).isEmpty then []
       else [parse_fastq ["@r\n", "GC\n", "+\n", "!!\n"]]) :=
  ⟨c7_amended_validation.1 _ 5 0 (by decide), c7_amended_validation.2 _ 0 (by decide)⟩

/-- Claim C9: end-to-end scenario. The 2-record stream (GGCC with quality
!!!!, AATT with quality IIII) analyzed with chunk size 1 yields exactly
total_reads 2, avg_gc 50, avg_length 4, avg_quality 20. -/
theorem c9_end_to_end :
    run_analysis ["@A\n", "GGCC\n", "+\n", "!!!!\n",
                  "@B\n", "AATT\n", "+\n", "IIII\n"] 1 4 =
      some ⟨50, 20, 4, 2⟩ := by
  simp [run_analysis, parse_fastq, pyStrip, isPySpace, chunked_iterator, chunkGo,
    mapResults, analyze_chunk, aggregate_stats, mean, qlist, quality_scores, gc_content]
  norm_num

/-- Claim C2: GC correctness. For every string, gc_content is 100 times the
count of G, C, g, c characters over the length (0 when empty), and the five
stated evaluations hold. -/
theorem c2_gc_content_correct :
    (∀ s : String, gc_content s =
      (if s.data = [] then 0
       else 100 * ((s.data.countP
           (fun c => decide (c = 'G' ∨ c = 'C' ∨ c = 'g' ∨ c = 'c')) : ℚ)) /
         (s.data.length : ℚ))) ∧
    gc_content "" = 0 ∧ gc_content "GCGC" = 100 ∧ gc_content "ATAT" = 0 ∧
    gc_content "GCAT" = 50 ∧ gc_content "gcat" = gc_content "GCAT" := by
  refine ⟨fun s => ?_, by decide, by simp [gc_content], by simp [gc_content],
    by simp [gc_content]; norm_num, by simp [gc_content]⟩
  simp only [gc_content, List.countP_eq_length_filter]
  have hpred : (fun base => ("GCgc".data).contains base) =
      (fun c => decide (c = 'G' ∨ c = 'C' ∨ c = 'g' ∨ c = 'c')) := by
    funext b
    exact gc_pred b
  rw [hpred]
  split
  · rfl
  · ring

/-- Claim C3: quality decoding. The i-th quality score is the i-th
character's code point minus 33, the characters exclamation mark and I
decode to 0 and 40, and analyze_chunk records as each read's quality the
arithmetic mean of that read's scores. -/
theorem c3_quality_decoding :
    (∀ (q : String) (i : ℕ),
      (quality_scores q)[i]? = (q.data[i]?).map (fun c => (c.toNat : ℤ) - 33)) ∧
    quality_scores "!" = [0] ∧ quality_scores "I" = [40] ∧
    (∀ (chunk : List Read) (st : ChunkStats), analyze_chunk chunk = some st →
      ∀ i : ℕ, st.qualities[i]? = (chunk[i]?).map readMeanQ) := by
  refine ⟨fun q i => ?_, by decide, by decide, fun chunk st h i => ?_⟩
  · simp [quality_scores, List.getElem?_map]
  · rw [analyze_chunk_some h]
    simp [statsOf, List.getElem?_map]

/-- Witness for C3 at the quality string of two characters and a concrete
one-read chunk. -/
theorem c3_quality_decoding_witness :
    (quality_scores "!I")[0]? = ("!I".data[0]?).map (fun c => (c.toNat : ℤ) - 33) ∧
    (⟨[100], [0], [2]⟩ : ChunkStats).qualities[0]? =
      ([(("GC" : String), ("!!" : String))][0]?).map readMeanQ :=
  ⟨c3_quality_decoding.1 "!I" 0,
   c3_quality_decoding.2.2.2 [("GC", "!!")] ⟨[100], [0], [2]⟩
     (by simp [analyze_chunk, mean, qlist, quality_scores, gc_content]) 0⟩

/-- Claim C4 as stated is false: parse_fastq strips leading whitespace too
(Python str.strip), so a sequence line with a leading blank differs from the
claimed trailing-terminator-only stripping. -/
theorem c4_counterexample :
    parse_fastq ["@r1\n", " ACGT\n", "+\n", "!!!!\n"] ≠
      parse_fastq_claimed ["@r1\n", " ACGT\n", "+\n", "!!!!\n"] := by
  decide

/-- Claim C4 amended: each Read comes from exactly four consecutive lines
(header discarded, sequence, separator discarded, quality), with sequence
and quality stripped of leading and trailing whitespace (Python str.strip),
and the output ends, without error, exactly at the first record whose
stripped quality line is empty. -/
theorem c4_record_reader : ∀ ls : List String, parse_fastq ls = fastqRecords ls
  | [] => rfl
  | [_a] => rfl
  | [_a, _b] => rfl
  | [_a, _b, _c] => rfl
  | a :: b :: c :: d :: rest => by
    simp only [parse_fastq, fastqRecords, groups4, List.takeWhile_cons]
    by_cases h : pyStrip d = ""
    · simp [h]
    · simp [h, c4_record_reader rest, fastqRecords]

/-- Claim C8: ordering independence. aggregate_stats returns identical
reports on any two permutations of a non-empty collection of chunk
summaries. -/
theorem c8_order_independence (rs rs2 : List ChunkStats) (hp : rs.Perm rs2)
    (_hne : rs ≠ []) : aggregate_stats rs = aggregate_stats rs2 := by
  have hg : ((rs.map (fun r => r.gc_contents)).flatten).Perm
      ((rs2.map (fun r => r.gc_contents)).flatten) := flatten_perm (hp.map _)
  have hq : ((rs.map (fun r => r.qualities)).flatten).Perm
      ((rs2.map (fun r => r.qualities)).flatten) := flatten_perm (hp.map _)
  have hl : ((rs.map (fun r => r.lengths)).flatten).Perm
      ((rs2.map (fun r => r.lengths)).flatten) := flatten_perm (hp.map _)
  have hlq : (((rs.map (fun r => r.lengths)).flatten).map
      (fun n : ℕ => (n : ℚ))).Perm (((rs2.map (fun r => r.lengths)).flatten).map
      (fun n : ℕ => (n : ℚ))) := hl.map _
  simp only [aggregate_stats]
  rw [mean_perm hg, mean_perm hq, mean_perm hlq, hg.length_eq]

/-- Witness for C8 at a two-summary collection and its reversal. -/
theorem c8_order_independence_witness :
    aggregate_stats [⟨[0], [1], [2]⟩, ⟨[100], [3], [4]⟩] =
      aggregate_stats [⟨[100], [3], [4]⟩, ⟨[0], [1], [2]⟩] :=
  c8_order_independence _ _ (List.Perm.swap _ _ _) (by decide)

/-- Claim C10: summary shape invariant. Each of the three lists analyze_chunk
returns has one entry per read, the i-th entry computed from the i-th read,
and aggregate_stats reports total_reads equal to the total number of reads
across all chunks. -/
theorem c10_summary_shape :
    (∀ (chunk : List Read) (st : ChunkStats), analyze_chunk chunk = some st →
      st.gc_contents.length = chunk.length ∧ st.qualities.length = chunk.length ∧
      st.lengths.length = chunk.length ∧
      (∀ i : ℕ, st.gc_contents[i]? = (chunk[i]?).map (fun r => gc_content r.1) ∧
        st.qualities[i]? = (chunk[i]?).map readMeanQ ∧
        st.lengths[i]? = (chunk[i]?).map (fun r => r.1.data.length))) ∧
    (∀ (chunks : List (List Read)) (sts : List ChunkStats) (rep : Report),
      mapResults chunks = some sts → aggregate_stats sts = some rep →
      rep.total_reads = (chunks.map List.length).sum) := by
  constructor
  · intro chunk st h
    rw [analyze_chunk_some h]
    refine ⟨by simp [statsOf], by simp [statsOf], by simp [statsOf], fun i => ?_⟩
    simp [statsOf, List.getElem?_map]
  · intro chunks sts rep hm ha
    rw [mapResults_some hm, aggregate_statsOf] at ha
    rw [directStats_total ha, List.length_flatten]

/-- Witness for C10 at a single one-read chunk. -/
theorem c10_summary_shape_witness :
    ((⟨[100], [0], [2]⟩ : ChunkStats).gc_contents.length =
        [(("GC" : String), ("!!" : String))].length ∧
      (⟨[100], [0], [2]⟩ : ChunkStats).qualities.length = [(("GC" : String), ("!!" : String))].length ∧
      (⟨[100], [0], [2]⟩ : ChunkStats).lengths.length = [(("GC" : String), ("!!" : String))].length ∧
      (∀ i : ℕ, (⟨[100], [0], [2]⟩ : ChunkStats).gc_contents[i]? =
          ([(("GC" : String), ("!!" : String))][i]?).map (fun r => gc_content r.1) ∧
        (⟨[100], [0], [2]⟩ : ChunkStats).qualities[i]? =
          ([(("GC" : String), ("!!" : String))][i]?).map readMeanQ ∧
        (⟨[100], [0], [2]⟩ : ChunkStats).lengths[i]? =
          ([(("GC" : String), ("!!" : String))][i]?).map (fun r => r.1.data.length))) ∧
    (⟨100, 0, 2, 1⟩ : Report).total_reads =
      ([[(("GC" : String), ("!!" : String))]].map List.length).sum :=
  ⟨c10_summary_shape.1 [("GC", "!!")] ⟨[100], [0], [2]⟩
     (by simp [analyze_chunk, mean, qlist, quality_scores, gc_content]),
   c10_summary_shape.2 [[("GC", "!!")]] [⟨[100], [0], [2]⟩] ⟨100, 0, 2, 1⟩
     (by simp [mapResults, analyze_chunk, mean, qlist, quality_scores, gc_content])
     (by simp [aggregate_stats, mean])⟩

end FastqInspector
